import Mathlib

/-!  Verification of the autoupdater scripts (updater.py, helpers/helper.py,
autoadd_toml.py): shallow embedding of the spec-file mutator, the version
comparator, the nvchecker output scan, the per-package update workflow, the
batch driver, the .nvchecker.toml source resolver and the git-operations
step, with theorems about the behaviour each claim describes. -/

namespace Autoupdater

/-! ## Spec-file mutation (`update_version_in_spec_file`, helpers/helper.py)

The Python function reads the file, applies
`re.sub` with pattern `^(Version:\s*)(.+)$`, replacement
`match.group(1) + new_version` and flag `re.MULTILINE` to the contents, and
writes the result back only when it differs, reporting "no changes"
otherwise.  The regex engine is modelled exactly: `^` holds at the start of
the text and after each newline, `\s` is Python's whitespace class (which
includes the newline), `.` is any character except newline, `$` holds before
a newline and at the end of the text, and `\s*` is greedy with backtracking,
so it may cross line boundaries. -/

/-- Python's `\s` character class for `str` patterns: exactly the
characters `str.isspace` accepts, namely U+0009-U+000D, the separators
U+001C-U+001F, the space U+0020, next line U+0085, no-break space U+00A0,
ogham space mark U+1680, the typographic spaces U+2000-U+200A, line
separator U+2028, paragraph separator U+2029, narrow no-break space U+202F,
medium mathematical space U+205F and ideographic space U+3000. -/
def isPySpace (c : Char) : Bool :=
  (9 ≤ c.toNat && c.toNat ≤ 13) || (28 ≤ c.toNat && c.toNat ≤ 32) ||
    c.toNat == 133 || c.toNat == 160 || c.toNat == 5760 ||
    (8192 ≤ c.toNat && c.toNat ≤ 8202) || c.toNat == 8232 ||
    c.toNat == 8233 || c.toNat == 8239 || c.toNat == 8287 || c.toNat == 12288

/-- The literal part of the pattern, `Version:`. -/
def verKey : List Char := String.toList "Version:"

/-- Matching `(\s*)(.+)$` against the text `u` that follows a `Version:` at a
line start, exactly as the backtracking engine does: `\s*` first takes the
maximal whitespace run; if any character follows that run, `.+` greedily
takes the rest of that line (down to the next newline or the end, where `$`
holds); otherwise — the run extends to the end of the text — `\s*`
backtracks to just before its last non-newline character, which then becomes
the single character matched by `.+`.  When even that fails (the run is all
newlines) there is no match.  In the backtracking branch the whole remaining
text is the whitespace run, so the run may be read off `u` itself.  Returns
`some (whitespace kept in group 1, group 2, text after the match)`. -/
def tryMatch (u : List Char) : Option (List Char × List Char × List Char) :=
  match u.dropWhile isPySpace with
  | c :: R' =>
      some (u.takeWhile isPySpace, (c :: R').takeWhile (fun d => d != '\n'),
        (c :: R').dropWhile (fun d => d != '\n'))
  | [] =>
      match u.reverse.dropWhile (fun d => d == '\n') with
      | [] => none
      | c :: cs =>
          some (cs.reverse, [c], (u.reverse.takeWhile (fun d => d == '\n')).reverse)

/-- Helper: `takeWhile` over an append whose left part wholly satisfies the
predicate. -/
theorem takeWhile_app {p : Char → Bool} {l₁ l₂ : List Char}
    (h : ∀ x ∈ l₁, p x = true) :
    (l₁ ++ l₂).takeWhile p = l₁ ++ l₂.takeWhile p := by
  induction l₁ with
  | nil => simp
  | cons a l ih =>
      have ha : p a = true := h a (by simp)
      simp [List.takeWhile, ha, ih fun x hx => h x (by simp [hx])]

/-- Helper: `dropWhile` over an append whose left part wholly satisfies the
predicate. -/
theorem dropWhile_app {p : Char → Bool} {l₁ l₂ : List Char}
    (h : ∀ x ∈ l₁, p x = true) :
    (l₁ ++ l₂).dropWhile p = l₂.dropWhile p := by
  induction l₁ with
  | nil => simp
  | cons a l ih =>
      have ha : p a = true := h a (by simp)
      simp [List.dropWhile, ha, ih fun x hx => h x (by simp [hx])]

/-- Helper: a list whose elements all satisfy the predicate is its own
`takeWhile`. -/
theorem takeWhile_all {p : Char → Bool} {l : List Char}
    (h : ∀ x ∈ l, p x = true) : l.takeWhile p = l := by
  induction l with
  | nil => simp
  | cons a l ih =>
      simp [List.takeWhile, h a (by simp), ih fun x hx => h x (by simp [hx])]

/-- Helper: every element of `takeWhile p l` satisfies `p`. -/
theorem of_mem_takeWhile {p : Char → Bool} {l : List Char} {x : Char}
    (h : x ∈ l.takeWhile p) : p x = true := by
  induction l with
  | nil => simp at h
  | cons a l ih =>
      by_cases ha : p a
      · simp only [List.takeWhile, ha] at h
        rcases List.mem_cons.1 h with rfl | h
        · exact ha
        · exact ih h
      · simp [List.takeWhile, Bool.of_not_eq_true ha] at h

/-- Helper: if `dropWhile` empties the list, every element satisfies `p`. -/
theorem all_of_dropWhile_nil {p : Char → Bool} {l : List Char}
    (h : l.dropWhile p = []) : ∀ x ∈ l, p x = true := by
  intro x hx
  have := List.takeWhile_append_dropWhile (p := p) (l := l)
  rw [h, List.append_nil] at this
  exact of_mem_takeWhile (this ▸ hx)

/-- Helper: the head of a `dropWhile` result fails the predicate. -/
theorem head_dropWhile_false {p : Char → Bool} {l r : List Char} {c : Char}
    (h : l.dropWhile p = c :: r) : p c = false := by
  induction l with
  | nil => simp at h
  | cons a l ih =>
      by_cases ha : p a
      · simp only [List.dropWhile, ha] at h
        exact ih h
      · simp only [List.dropWhile, Bool.of_not_eq_true ha] at h
        cases h
        exact Bool.of_not_eq_true ha

/-- Helper: `takeWhile` never lengthens a list. -/
theorem len_takeWhile_le (p : Char → Bool) (l : List Char) :
    (l.takeWhile p).length ≤ l.length := by
  induction l with
  | nil => simp
  | cons a l ih =>
      by_cases ha : p a
      · simp only [List.takeWhile, ha]
        simpa using ih
      · simp [List.takeWhile, Bool.of_not_eq_true ha]

/-- Helper: `dropWhile` never lengthens a list. -/
theorem len_dropWhile_le (p : Char → Bool) (l : List Char) :
    (l.dropWhile p).length ≤ l.length := by
  induction l with
  | nil => simp
  | cons a l ih =>
      by_cases ha : p a
      · simp only [List.dropWhile, ha]
        exact le_trans ih (by simp)
      · simp [List.dropWhile, Bool.of_not_eq_true ha]

/-- The text after a successful match is no longer than the input. -/
theorem tryMatch_length {u g1 g2 rest : List Char}
    (h : tryMatch u = some (g1, g2, rest)) : rest.length ≤ u.length := by
  unfold tryMatch at h
  cases hdrop : u.dropWhile isPySpace with
  | cons c R' =>
      rw [hdrop] at h
      simp only [Option.some.injEq, Prod.mk.injEq] at h
      obtain ⟨-, -, hrest⟩ := h
      calc rest.length = ((c :: R').dropWhile (fun d => d != '\n')).length := by rw [hrest]
        _ ≤ (c :: R').length := len_dropWhile_le _ _
        _ = (u.dropWhile isPySpace).length := by rw [hdrop]
        _ ≤ u.length := len_dropWhile_le _ _
  | nil =>
      rw [hdrop] at h
      cases hrev : u.reverse.dropWhile (fun d => d == '\n') with
      | nil => rw [hrev] at h; simp at h
      | cons c cs =>
          rw [hrev] at h
          simp only [Option.some.injEq, Prod.mk.injEq] at h
          obtain ⟨-, -, hrest⟩ := h
          calc rest.length
              = ((u.reverse.takeWhile (fun d => d == '\n')).reverse).length := by
                rw [hrest]
            _ = (u.reverse.takeWhile (fun d => d == '\n')).length := by
                rw [List.length_reverse]
            _ ≤ u.reverse.length := len_takeWhile_le _ _
            _ = u.length := by rw [List.length_reverse]

/-- Group 1's kept whitespace is indeed whitespace. -/
theorem tryMatch_g1_ws {u g1 g2 rest : List Char}
    (h : tryMatch u = some (g1, g2, rest)) : ∀ x ∈ g1, isPySpace x = true := by
  unfold tryMatch at h
  cases hdrop : u.dropWhile isPySpace with
  | cons c R' =>
      rw [hdrop] at h
      simp only [Option.some.injEq, Prod.mk.injEq] at h
      obtain ⟨hg1, -, -⟩ := h
      intro x hx
      exact of_mem_takeWhile (hg1 ▸ hx)
  | nil =>
      rw [hdrop] at h
      cases hrev : u.reverse.dropWhile (fun d => d == '\n') with
      | nil => rw [hrev] at h; simp at h
      | cons c cs =>
          rw [hrev] at h
          simp only [Option.some.injEq, Prod.mk.injEq] at h
          obtain ⟨hg1, -, -⟩ := h
          intro x hx
          have h1 : x ∈ cs := by
            have := hg1 ▸ hx
            simpa using List.mem_reverse.1 (by simpa using this)
          have h2 : x ∈ u.reverse.dropWhile (fun d => d == '\n') := by
            rw [hrev]; exact List.mem_cons_of_mem _ h1
          have hxu : x ∈ u := List.mem_reverse.1 (List.dropWhile_subset _ h2)
          exact all_of_dropWhile_nil hdrop x hxu

/-- The text after a successful match is empty or starts with a newline (the
match ends at a `$` position). -/
theorem tryMatch_rest_shape {u g1 g2 rest : List Char}
    (h : tryMatch u = some (g1, g2, rest)) :
    rest = [] ∨ ∃ r, rest = '\n' :: r := by
  unfold tryMatch at h
  cases hdrop : u.dropWhile isPySpace with
  | cons c R' =>
      rw [hdrop] at h
      simp only [Option.some.injEq, Prod.mk.injEq] at h
      obtain ⟨-, -, hrest⟩ := h
      cases hd : (c :: R').dropWhile (fun d => d != '\n') with
      | nil => left; rw [← hrest, hd]
      | cons d r =>
          right
          have : (d != '\n') = false :=
            head_dropWhile_false (p := fun d => d != '\n') hd
          have hdn : d = '\n' := by simpa using this
          exact ⟨r, by rw [← hrest, hd, hdn]⟩
  | nil =>
      rw [hdrop] at h
      cases hrev : u.reverse.dropWhile (fun d => d == '\n') with
      | nil => rw [hrev] at h; simp at h
      | cons c cs =>
          rw [hrev] at h
          simp only [Option.some.injEq, Prod.mk.injEq] at h
          obtain ⟨-, -, hrest⟩ := h
          cases hr : (u.reverse.takeWhile (fun d => d == '\n')).reverse with
          | nil => left; rw [← hrest, hr]
          | cons d r =>
              right
              have hd : d ∈ (u.reverse.takeWhile (fun d => d == '\n')).reverse := by
                rw [hr]; simp
              have : (d == '\n') = true :=
                of_mem_takeWhile (p := fun d => d == '\n') (List.mem_reverse.1 hd)
              exact ⟨r, by rw [← hrest, hr, show d = '\n' by simpa using this]⟩

/-- When the match fails, everything after the `Version:` is newlines. -/
theorem tryMatch_none_all_nl {u : List Char}
    (h : tryMatch u = none) : ∀ x ∈ u, x = '\n' := by
  unfold tryMatch at h
  cases hd : u.dropWhile isPySpace with
  | cons c R' => rw [hd] at h; simp at h
  | nil =>
      rw [hd] at h
      cases hrev : u.reverse.dropWhile (fun d => d == '\n') with
      | cons c cs => rw [hrev] at h; simp at h
      | nil =>
          intro x hx
          have := all_of_dropWhile_nil hrev x (List.mem_reverse.2 hx)
          simpa using this

/-- A successful match re-applied to its own replacement: when the new
version is nonempty, starts with a non-whitespace character and contains no
newline, and the following text `X` is empty or starts with a newline, the
engine matches `g1 ++ nv ++ X` as `(\s*) = g1`, `(.+) = nv`, leaving `X`. -/
theorem tryMatch_concat {g1 X : List Char} {a : Char} {nv' : List Char}
    (hg1 : ∀ x ∈ g1, isPySpace x = true)
    (ha : isPySpace a = false)
    (hnl : '\n' ∉ a :: nv')
    (hX : X = [] ∨ ∃ r, X = '\n' :: r) :
    tryMatch (g1 ++ (a :: nv') ++ X) = some (g1, a :: nv', X) := by
  have hdrop : (g1 ++ (a :: nv') ++ X).dropWhile isPySpace = a :: (nv' ++ X) := by
    rw [List.append_assoc, dropWhile_app hg1]
    simp [List.dropWhile, ha]
  have htake : (g1 ++ (a :: nv') ++ X).takeWhile isPySpace = g1 := by
    rw [List.append_assoc, takeWhile_app hg1]
    simp [List.takeWhile, ha]
  have hnvnl : ∀ x ∈ a :: nv', (x != '\n') = true := by
    intro x hx
    simp only [bne_iff_ne, ne_eq]
    exact fun hcon => hnl (hcon ▸ hx)
  unfold tryMatch
  rw [hdrop]
  dsimp only
  have h2 : (a :: (nv' ++ X)).takeWhile (fun d => d != '\n') = a :: nv' := by
    have : a :: (nv' ++ X) = (a :: nv') ++ X := by simp
    rw [this, takeWhile_app hnvnl]
    rcases hX with rfl | ⟨r, rfl⟩
    · simp
    · simp [List.takeWhile]
  have h3 : (a :: (nv' ++ X)).dropWhile (fun d => d != '\n') = X := by
    have : a :: (nv' ++ X) = (a :: nv') ++ X := by simp
    rw [this, dropWhile_app hnvnl]
    rcases hX with rfl | ⟨r, rfl⟩
    · simp
    · simp [List.dropWhile]
  rw [h2, h3, htake]


/-! ## The `re.sub` scan

`scanF` walks the text left to right with a fuel parameter (one unit per
step, and every step consumes at least one character, so `length` fuel
suffices).  The flag `b` records whether the current position is a line
start (`^` holds there: at the start of the text and right after every
newline).  At a line-start position whose text begins with `Version:` the
engine attempts the match; on success the replacement `group1 ++ nv` is
emitted and scanning resumes after group 2, otherwise the scan advances one
character. -/

def scanF (nv : List Char) : Nat → Bool → List Char → List Char
  | 0, _, s => s
  | n + 1, b, s =>
    match s with
    | [] => []
    | c :: t =>
      if b && verKey.isPrefixOf (c :: t) then
        match tryMatch ((c :: t).drop 8) with
        | some (g1, _, rest) => verKey ++ g1 ++ nv ++ scanF nv n false rest
        | none => c :: scanF nv n (c == '\n') t
      else c :: scanF nv n (c == '\n') t

/-- `isPrefixOf` forces at least the pattern's length. -/
theorem isPrefixOf_length {x s : List Char} (h : x.isPrefixOf s = true) :
    x.length ≤ s.length := by
  have := List.isPrefixOf_iff_prefix.1 h
  exact this.length_le

/-- The scan result does not depend on the fuel once the fuel covers the
text length. -/
theorem scanF_irrel (nv : List Char) :
    ∀ n m b (s : List Char), s.length ≤ n → s.length ≤ m →
      scanF nv n b s = scanF nv m b s := by
  intro n
  induction n with
  | zero =>
      intro m b s hn _
      have : s = [] := List.eq_nil_of_length_eq_zero (Nat.le_zero.1 hn)
      subst this
      cases m <;> rfl
  | succ n ih =>
      intro m b s hn hm
      cases s with
      | nil => cases m <;> rfl
      | cons c t =>
          cases m with
          | zero => simp at hm
          | succ m' =>
              have hn' : t.length ≤ n := by simpa using hn
              have hm' : t.length ≤ m' := by simpa using hm
              show scanF nv (n+1) b (c :: t) = scanF nv (m'+1) b (c :: t)
              by_cases hb : (b && verKey.isPrefixOf (c :: t)) = true
              · cases hmm : tryMatch ((c :: t).drop 8) with
                | none =>
                    have hmm' : tryMatch (t.drop 7) = none := by simpa using hmm
                    simp [scanF, hb, hmm', ih m' (c == '\n') t hn' hm']
                | some g =>
                    obtain ⟨g1, g2, rest⟩ := g
                    have hlen : rest.length ≤ ((c :: t).drop 8).length :=
                      tryMatch_length hmm
                    have h8 : 8 ≤ (c :: t).length := by
                      have hb2 : verKey.isPrefixOf (c :: t) = true := by
                        rw [Bool.and_eq_true] at hb
                        exact hb.2
                      have h1 := isPrefixOf_length hb2
                      have h2 : verKey.length = 8 := rfl
                      omega
                    have hr : rest.length ≤ n := by
                      simp only [List.length_drop, List.length_cons] at hlen h8 hn
                      omega
                    have hr' : rest.length ≤ m' := by
                      simp only [List.length_drop, List.length_cons] at hlen h8 hm
                      omega
                    have hmm' : tryMatch (t.drop 7) = some (g1, g2, rest) := by
                      simpa using hmm
                    simp [scanF, hb, hmm', ih m' false rest hr hr']
              · rw [Bool.not_eq_true] at hb
                simp [scanF, hb, ih m' (c == '\n') t hn' hm']

/-- The scan with exactly enough fuel: this is the function all statements
use. -/
def scan (nv : List Char) (b : Bool) (s : List Char) : List Char :=
  scanF nv s.length b s

/-- `re.sub(r"^(Version:\s*)(.+)$", lambda m: m.group(1) + nv, s, flags=re.MULTILINE)`. -/
def sub (nv s : List Char) : List Char := scan nv true s

theorem scan_nil (nv : List Char) (b : Bool) : scan nv b [] = [] := rfl

/-- Shape: a position that is not a line start, or whose text does not begin
with `Version:`, passes one character through. -/
theorem scan_cons_noFire {nv : List Char} {b : Bool} {c : Char} {t : List Char}
    (h : (b && verKey.isPrefixOf (c :: t)) = false) :
    scan nv b (c :: t) = c :: scan nv (c == '\n') t := by
  show scanF nv (c :: t).length b (c :: t) = _
  simp only [List.length_cons]
  simp [scanF, h, scan]

/-- Shape: a line start beginning with `Version:` where the engine finds no
match also passes one character through. -/
theorem scan_cons_noMatch {nv : List Char} {b : Bool} {c : Char} {t : List Char}
    (hm : tryMatch ((c :: t).drop 8) = none) :
    scan nv b (c :: t) = c :: scan nv (c == '\n') t := by
  by_cases h : (b && verKey.isPrefixOf (c :: t)) = true
  · have hm' : tryMatch (t.drop 7) = none := by simpa using hm
    show scanF nv (c :: t).length b (c :: t) = _
    simp only [List.length_cons]
    simp [scanF, h, hm', scan]
  · exact scan_cons_noFire (Bool.not_eq_true _ ▸ h)

/-- Shape: a successful match at a line start emits `Version: ++ g1 ++ nv`
and resumes after group 2. -/
theorem scan_cons_fire {nv : List Char} {c : Char} {t g1 g2 rest : List Char}
    (hp : verKey.isPrefixOf (c :: t) = true)
    (hm : tryMatch ((c :: t).drop 8) = some (g1, g2, rest)) :
    scan nv true (c :: t) = verKey ++ g1 ++ nv ++ scan nv false rest := by
  have hb : (true && verKey.isPrefixOf (c :: t)) = true := by simp [hp]
  have hlen : rest.length ≤ ((c :: t).drop 8).length := tryMatch_length hm
  have h8 : 8 ≤ (c :: t).length := by
    have h1 := isPrefixOf_length hp
    have h2 : verKey.length = 8 := rfl
    omega
  have hrt : rest.length ≤ t.length := by
    simp only [List.length_drop, List.length_cons] at hlen h8
    omega
  have hm' : tryMatch (t.drop 7) = some (g1, g2, rest) := by simpa using hm
  show scanF nv (c :: t).length true (c :: t) = _
  simp only [List.length_cons]
  simp [scanF, hb, hm', scan,
    scanF_irrel nv t.length rest.length false rest hrt (le_refl _)]

/-- Outcome of `update_version_in_spec_file`: either the substitution left
the contents unchanged — the function reports "No changes made." and does
not write — or the new contents are written back to the file. -/
inductive SpecUpdateResult where
  | noChanges
  | written (newContents : List Char)
deriving DecidableEq, Repr

/-- `update_version_in_spec_file` (helpers/helper.py, lines 104-125): read
the contents, apply the substitution, and either report no changes or write
the updated contents back. -/
def update_version_in_spec_file (contents nv : List Char) : SpecUpdateResult :=
  let updated := sub nv contents
  if updated = contents then .noChanges else .written updated

/-! ## Line-level view of the text -/

/-- The lines of a text, split at newlines; separators are dropped and a
trailing newline yields a final empty line. -/
def splitOnNl : List Char → List (List Char)
  | [] => [[]]
  | c :: t =>
      if c == '\n' then [] :: splitOnNl t
      else
        match splitOnNl t with
        | [] => [[c]]
        | l :: ls => (c :: l) :: ls

/-- Interleave lines with newlines; inverse of `splitOnNl`. -/
def joinLines : List (List Char) → List Char
  | [] => []
  | [l] => l
  | l :: l' :: ls => l ++ '\n' :: joinLines (l' :: ls)

theorem splitOnNl_ne_nil (s : List Char) : splitOnNl s ≠ [] := by
  cases s with
  | nil => simp [splitOnNl]
  | cons c t =>
      by_cases hc : (c == '\n') = true
      · simp [splitOnNl, hc]
      · simp only [splitOnNl, hc]
        cases splitOnNl t <;> simp

theorem joinLines_cons {l : List (List Char)} {a : List Char}
    (h : l ≠ []) : joinLines (a :: l) = a ++ '\n' :: joinLines l := by
  cases l with
  | nil => exact absurd rfl h
  | cons b bs => rfl

/-- Splitting and re-joining the lines reproduces the text. -/
theorem joinLines_splitOnNl (s : List Char) : joinLines (splitOnNl s) = s := by
  induction s with
  | nil => rfl
  | cons c t ih =>
      by_cases hc : (c == '\n') = true
      · have hcn : c = '\n' := by simpa using hc
        simp only [splitOnNl, hc, if_true]
        rw [joinLines_cons (splitOnNl_ne_nil t), ih, hcn]
        simp
      · simp only [splitOnNl, hc, if_false]
        cases hsp : splitOnNl t with
        | nil => exact absurd hsp (splitOnNl_ne_nil t)
        | cons l ls =>
            cases ls with
            | nil =>
                rw [hsp] at ih
                have hlt : l = t := ih
                show c :: l = c :: t
                rw [hlt]
            | cons l' ls' =>
                rw [hsp] at ih
                rw [← ih]
                show (c :: l) ++ '\n' :: joinLines (l' :: ls') =
                  c :: (l ++ '\n' :: joinLines (l' :: ls'))
                simp

/-- No line produced by `splitOnNl` contains a newline. -/
theorem splitOnNl_no_nl (s : List Char) : ∀ l ∈ splitOnNl s, '\n' ∉ l := by
  induction s with
  | nil => simp [splitOnNl]
  | cons c t ih =>
      by_cases hc : (c == '\n') = true
      · simp only [splitOnNl, hc, if_true]
        intro l hl
        rcases List.mem_cons.1 hl with rfl | hl
        · simp
        · exact ih l hl
      · have hcn : c ≠ '\n' := by simpa using hc
        simp only [splitOnNl, hc, if_false]
        cases hsp : splitOnNl t with
        | nil => exact absurd hsp (splitOnNl_ne_nil t)
        | cons l ls =>
            intro l' hl'
            rcases List.mem_cons.1 hl' with rfl | hl'
            · intro hmem
              rcases List.mem_cons.1 hmem with h | h
              · exact hcn h.symm
              · exact ih l (by rw [hsp]; simp) h
            · exact ih l' (by rw [hsp]; exact List.mem_cons_of_mem _ hl')

/-- The whitespace following `Version:` on a line. -/
def lineWs (l : List Char) : List Char := (l.drop 8).takeWhile isPySpace

/-- The value following `Version:` and its whitespace on a line. -/
def lineVal (l : List Char) : List Char := (l.drop 8).dropWhile isPySpace

/-- A line carrying a `Version:` field with a nonempty value. -/
def lineMatches (l : List Char) : Bool :=
  verKey.isPrefixOf l && !(lineVal l).isEmpty

/-- The per-line effect of the substitution on a well-formed line: a
matching line keeps `Version:` and its whitespace and gets the new value,
any other line is untouched. -/
def lineSub (nv l : List Char) : List Char :=
  if lineMatches l then verKey ++ lineWs l ++ nv else l

/-- Whether the pattern `^(Version:\s*)(.+)$` matches a single (newline
free) line taken as a whole text. -/
def lineRegexMatch (l : List Char) : Bool :=
  verKey.isPrefixOf l && (tryMatch (l.drop 8)).isSome

/-- A line is well formed when it has no newline (true of every line of
`splitOnNl`) and, if it starts with `Version:`, carries a nonempty value:
such a line can only be matched within itself. -/
def lineOk (l : List Char) : Prop :=
  '\n' ∉ l ∧ (verKey.isPrefixOf l = true → lineVal l ≠ [])

instance (l : List Char) : Decidable (lineOk l) := by
  unfold lineOk
  infer_instance

/-! ## Pass-through lemmas for the scan -/

/-- Away from a line start the scan copies characters until the next
newline. -/
theorem scan_false_app {nv x r : List Char} (hx : '\n' ∉ x) :
    scan nv false (x ++ r) = x ++ scan nv false r := by
  induction x with
  | nil => simp
  | cons c x' ih =>
      have hne : (c == '\n') = false := by
        simp only [beq_eq_false_iff_ne, ne_eq]
        exact fun hcon => hx (by simp [hcon])
      have h1 : scan nv false (c :: (x' ++ r)) =
          c :: scan nv (c == '\n') (x' ++ r) :=
        scan_cons_noFire (by simp)
      rw [List.cons_append, h1, hne, ih (fun hcon => hx (by simp [hcon]))]
      rfl

/-- The scan never changes whether a newline-free pattern is a prefix of
text processed away from a line start. -/
theorem isPrefixOf_scan_false {nv x : List Char} (hx : '\n' ∉ x) :
    ∀ t : List Char, x.isPrefixOf (scan nv false t) = x.isPrefixOf t := by
  induction x with
  | nil => intro t; simp [List.isPrefixOf]
  | cons a x' ih =>
      intro t
      cases t with
      | nil => rfl
      | cons c t' =>
          rw [scan_cons_noFire (by simp)]
          show (a == c && x'.isPrefixOf (scan nv (c == '\n') t')) =
            (a == c && x'.isPrefixOf t')
          by_cases hac : (a == c) = true
          · have ha : a ≠ '\n' := fun hcon => hx (by simp [hcon])
            have hc : (c == '\n') = false := by
              have : a = c := by simpa using hac
              simp only [beq_eq_false_iff_ne, ne_eq]
              exact this ▸ ha
            rw [hc, hac, ih (fun hcon => hx (by simp [hcon])) t']
          · rw [Bool.not_eq_true] at hac
            rw [hac]
            simp

/-- A newline-free pattern is a prefix of `l ++ '\n' :: r` exactly when it
is a prefix of `l`. -/
theorem isPrefixOf_app_nl {x : List Char} (hx : '\n' ∉ x) :
    ∀ l r : List Char, x.isPrefixOf (l ++ '\n' :: r) = x.isPrefixOf l := by
  induction x with
  | nil => intro l r; simp [List.isPrefixOf]
  | cons a x' ih =>
      intro l r
      cases l with
      | nil =>
          show (a == '\n' && _) = _
          have : (a == '\n') = false := by
            simp only [beq_eq_false_iff_ne, ne_eq]
            exact fun hcon => hx (by simp [hcon])
          rw [this]
          simp [List.isPrefixOf]
      | cons c l' =>
          show (a == c && x'.isPrefixOf (l' ++ '\n' :: r)) =
            (a == c && x'.isPrefixOf l')
          rw [ih (fun hcon => hx (by simp [hcon])) l' r]

/-- A list is a prefix of itself extended. -/
theorem isPrefixOf_append_self (x y : List Char) :
    x.isPrefixOf (x ++ y) = true := by
  induction x with
  | nil => simp [List.isPrefixOf]
  | cons a x' ih => simp [List.isPrefixOf, ih]

/-- Text with a prefix decomposes as the prefix plus the rest. -/
theorem eq_app_of_isPrefixOf {x s : List Char} (h : x.isPrefixOf s = true) :
    s = x ++ s.drop x.length := by
  obtain ⟨t, ht⟩ := List.isPrefixOf_iff_prefix.1 h
  rw [← ht, List.drop_left]

/-- `dropWhile` over an append, when the left part already yields a
non-empty remainder. -/
theorem dropWhile_app2 {p : Char → Bool} {l₁ l₂ r : List Char} {c : Char}
    (h : l₁.dropWhile p = c :: r) :
    (l₁ ++ l₂).dropWhile p = c :: (r ++ l₂) := by
  induction l₁ with
  | nil => simp at h
  | cons a t ih =>
      by_cases ha : p a = true
      · simp only [List.dropWhile, ha] at h
        rw [List.cons_append]
        simp only [List.dropWhile, ha]
        exact ih h
      · have ha' : p a = false := Bool.not_eq_true _ ▸ ha
        simp only [List.dropWhile, ha'] at h
        cases h
        rw [List.cons_append]
        simp [List.dropWhile, ha']

/-- `takeWhile` over an append, when the left part already yields a
non-empty `dropWhile` remainder. -/
theorem takeWhile_app2 {p : Char → Bool} {l₁ l₂ r : List Char} {c : Char}
    (h : l₁.dropWhile p = c :: r) :
    (l₁ ++ l₂).takeWhile p = l₁.takeWhile p := by
  induction l₁ with
  | nil => simp at h
  | cons a t ih =>
      by_cases ha : p a = true
      · simp only [List.dropWhile, ha] at h
        rw [List.cons_append]
        simp only [List.takeWhile, ha]
        rw [ih h]
      · have ha' : p a = false := Bool.not_eq_true _ ▸ ha
        rw [List.cons_append]
        simp [List.takeWhile, ha']

/-- The pattern is newline free. -/
theorem verKey_nl : '\n' ∉ verKey := by decide

/-- `Version:` is never a prefix of a line starting with a newline. -/
theorem verKey_not_prefix_nl (r : List Char) :
    verKey.isPrefixOf ('\n' :: r) = false := by
  show (('V' == '\n') && (String.toList "ersion:").isPrefixOf r) = false
  rw [show ('V' == '\n') = false by decide]
  rfl

/-- Dropping the pattern length from a decomposed text. -/
theorem drop8_verKey (z : List Char) : (verKey ++ z).drop 8 = z := by
  have := List.drop_left verKey z
  rwa [show verKey.length = 8 from rfl] at this

/-- `scan_cons_fire` for text given in `verKey ++ _` decomposition. -/
theorem scan_fire_of {nv s g1 g2 rest : List Char}
    (hne : s ≠ []) (hp : verKey.isPrefixOf s = true)
    (hm : tryMatch (s.drop 8) = some (g1, g2, rest)) :
    scan nv true s = verKey ++ g1 ++ nv ++ scan nv false rest := by
  cases s with
  | nil => exact absurd rfl hne
  | cons c t => exact scan_cons_fire hp hm

/-- Scanning away from a line start stops copying at a newline, where a
line start begins. -/
theorem scan_false_nl (nv r : List Char) :
    scan nv false ('\n' :: r) = '\n' :: scan nv true r := by
  rw [scan_cons_noFire (by simp)]
  norm_num

/-- A text of newlines only is left unchanged by the scan. -/
theorem scan_all_nl {nv u : List Char} (h : ∀ x ∈ u, x = '\n') :
    ∀ b, scan nv b u = u := by
  induction u with
  | nil => intro b; rfl
  | cons c t ih =>
      intro b
      have hc : c = '\n' := h c (by simp)
      have hfire : verKey.isPrefixOf (c :: t) = false := by
        rw [hc]; exact verKey_not_prefix_nl t
      rw [scan_cons_noFire (by simp [hfire]), ih (fun x hx => h x (by simp [hx]))]

/-- A scan away from a line start never creates nor destroys a `Version:`
prefix. -/
theorem isPrefixOf_cons_scan (nv : List Char) (c : Char) (t : List Char) :
    verKey.isPrefixOf (c :: scan nv false t) = verKey.isPrefixOf (c :: t) := by
  show (('V' == c) && (String.toList "ersion:").isPrefixOf (scan nv false t)) =
    (('V' == c) && (String.toList "ersion:").isPrefixOf t)
  rw [isPrefixOf_scan_false (by decide) t]

/-- One well-formed line followed by nothing or by a newline: the scan
rewrites exactly the line's own match and continues after it. -/
theorem scan_line_gen {nv l sep : List Char} (hl : lineOk l)
    (hsep : sep = [] ∨ ∃ r, sep = '\n' :: r) :
    scan nv true (l ++ sep) = lineSub nv l ++ scan nv false sep := by
  by_cases hp : verKey.isPrefixOf l = true
  · -- the line carries `Version:` with (by lineOk) a nonempty value
    have hval : lineVal l ≠ [] := hl.2 hp
    have hdec : l = verKey ++ l.drop 8 := by
      have h := eq_app_of_isPrefixOf hp
      rwa [show verKey.length = 8 from rfl] at h
    have hvnl : '\n' ∉ l.drop 8 := fun hmem => hl.1 (List.mem_of_mem_drop hmem)
    obtain ⟨d, val', hdw⟩ : ∃ d val', (l.drop 8).dropWhile isPySpace = d :: val' := by
      cases hdw : (l.drop 8).dropWhile isPySpace with
      | nil => exact absurd hdw hval
      | cons d val' => exact ⟨d, val', rfl⟩
    have hd_ws : isPySpace d = false := head_dropWhile_false hdw
    have hdval_nl : ∀ x ∈ d :: val', (x != '\n') = true := by
      intro x hx
      have hxv : x ∈ l.drop 8 := List.dropWhile_subset _ (hdw ▸ hx)
      simp only [bne_iff_ne, ne_eq]
      exact fun hcon => hvnl (hcon ▸ hxv)
    have htm : tryMatch (l.drop 8 ++ sep) =
        some ((l.drop 8).takeWhile isPySpace, d :: val', sep) := by
      unfold tryMatch
      rw [dropWhile_app2 hdw]
      dsimp only
      have h2 : (l.drop 8 ++ sep).takeWhile isPySpace =
          (l.drop 8).takeWhile isPySpace := takeWhile_app2 hdw
      have h3 : (d :: (val' ++ sep)).takeWhile (fun x => x != '\n') = d :: val' := by
        rw [show d :: (val' ++ sep) = (d :: val') ++ sep from rfl,
          takeWhile_app hdval_nl]
        rcases hsep with rfl | ⟨r, rfl⟩
        · simp
        · simp [List.takeWhile]
      have h4 : (d :: (val' ++ sep)).dropWhile (fun x => x != '\n') = sep := by
        rw [show d :: (val' ++ sep) = (d :: val') ++ sep from rfl,
          dropWhile_app hdval_nl]
        rcases hsep with rfl | ⟨r, rfl⟩
        · simp
        · simp [List.dropWhile]
      rw [h2, h3, h4]
    have hpre : verKey.isPrefixOf (l ++ sep) = true := by
      conv_lhs => rw [hdec]
      rw [List.append_assoc]
      exact isPrefixOf_append_self _ _
    have hdrop8 : (l ++ sep).drop 8 = l.drop 8 ++ sep := by
      conv_lhs => rw [hdec]
      rw [List.append_assoc]
      exact drop8_verKey _
    have hne : l ++ sep ≠ [] := by
      rw [hdec]
      simp [verKey]
    rw [scan_fire_of hne hpre (by rw [hdrop8]; exact htm)]
    have hmatch : lineMatches l = true := by
      have : (lineVal l).isEmpty = false := by
        unfold lineVal
        rw [hdw]
        rfl
      simp [lineMatches, hp, this]
    simp [lineSub, hmatch, lineWs]
  · -- the line does not carry `Version:` and passes through unchanged
    have hp' : verKey.isPrefixOf l = false := Bool.not_eq_true _ ▸ hp
    have hsubl : lineSub nv l = l := by simp [lineSub, lineMatches, hp']
    rw [hsubl]
    cases l with
    | nil =>
        rcases hsep with rfl | ⟨r, rfl⟩
        · rfl
        · rw [List.nil_append, List.nil_append, scan_false_nl,
            scan_cons_noFire (by simp [verKey_not_prefix_nl])]
          norm_num
    | cons c t' =>
        have hcnl : c ≠ '\n' := fun hcon => hl.1 (by simp [hcon])
        have htnl : '\n' ∉ t' := fun hcon => hl.1 (by simp [hcon])
        have hfire : verKey.isPrefixOf (c :: (t' ++ sep)) = false := by
          rcases hsep with rfl | ⟨r, rfl⟩
          · simpa using hp'
          · have := isPrefixOf_app_nl verKey_nl (c :: t') r
            rw [show (c :: t') ++ '\n' :: r = c :: (t' ++ '\n' :: r) from rfl] at this
            rw [this]
            exact hp'
        rw [show (c :: t') ++ sep = c :: (t' ++ sep) from rfl,
          scan_cons_noFire (by simp [hfire]),
          show (c == '\n') = false by simp [hcnl],
          scan_false_app htnl]
        rfl

/-- The scan of a text of well-formed lines is the line-wise substitution:
every matching line is rewritten, every other line is untouched. -/
theorem scan_join {nv : List Char} :
    ∀ ls : List (List Char), (∀ l ∈ ls, lineOk l) →
      scan nv true (joinLines ls) = joinLines (ls.map (lineSub nv)) := by
  intro ls
  induction ls with
  | nil => intro _; rfl
  | cons l ls' ih =>
      intro h
      cases ls' with
      | nil =>
          show scan nv true l = lineSub nv l
          have h0 : scan nv true (l ++ []) = lineSub nv l ++ scan nv false [] :=
            scan_line_gen (h l (by simp)) (Or.inl rfl)
          simpa [scan_nil] using h0
      | cons l2 ls'' =>
          have h1 : joinLines (l :: l2 :: ls'') = l ++ '\n' :: joinLines (l2 :: ls'') := rfl
          rw [h1, scan_line_gen (h l (by simp)) (Or.inr ⟨_, rfl⟩), scan_false_nl,
            ih (fun x hx => h x (by simp [hx]))]
          have hm2 : List.map (lineSub nv) (l :: l2 :: ls'') =
              lineSub nv l :: lineSub nv l2 :: List.map (lineSub nv) ls'' := rfl
          have hm3 : List.map (lineSub nv) (l2 :: ls'') =
              lineSub nv l2 :: List.map (lineSub nv) ls'' := rfl
          rw [hm2, hm3,
            joinLines_cons (l := lineSub nv l2 :: List.map (lineSub nv) ls'') (by simp)]

/-- Nonempty decomposed text. -/
theorem verKey_app_ne_nil (z : List Char) : verKey ++ z ≠ [] := by
  show 'V' :: (String.toList "ersion:" ++ z) ≠ []
  simp

/-- Idempotence core: when the new version starts with a non-whitespace
character and contains no newline, rescanning a scanned text changes
nothing. -/
theorem scan_scan {a : Char} {nvt : List Char}
    (ha : isPySpace a = false) (hnl : '\n' ∉ a :: nvt) :
    ∀ n (s : List Char), s.length ≤ n → ∀ b,
      scan (a :: nvt) b (scan (a :: nvt) b s) = scan (a :: nvt) b s := by
  intro n
  induction n with
  | zero =>
      intro s hs b
      have : s = [] := List.eq_nil_of_length_eq_zero (Nat.le_zero.1 hs)
      subst this
      rfl
  | succ n ih =>
      intro s hs b
      cases s with
      | nil => rfl
      | cons c t =>
          have ht : t.length ≤ n := by simpa using hs
          cases b with
          | false =>
              rw [scan_cons_noFire (by simp)]
              rw [scan_cons_noFire (by simp)]
              rw [ih t ht (c == '\n')]
          | true =>
              by_cases hp : verKey.isPrefixOf (c :: t) = true
              · cases hmm : tryMatch ((c :: t).drop 8) with
                | some g =>
                    obtain ⟨g1, g2, rest⟩ := g
                    have hrl : rest.length ≤ n := by
                      have h1 := tryMatch_length hmm
                      have h2 := isPrefixOf_length hp
                      have h3 : verKey.length = 8 := rfl
                      simp only [List.length_drop, List.length_cons] at h1 h2 hs
                      omega
                    rw [scan_cons_fire hp hmm]
                    have hg1 := tryMatch_g1_ws hmm
                    have hXshape : scan (a :: nvt) false rest = [] ∨
                        ∃ r, scan (a :: nvt) false rest = '\n' :: r := by
                      rcases tryMatch_rest_shape hmm with hr | ⟨r, hr⟩
                      · left; rw [hr]; rfl
                      · right; rw [hr, scan_false_nl]; exact ⟨_, rfl⟩
                    have htm2 : tryMatch (g1 ++ (a :: nvt) ++ scan (a :: nvt) false rest) =
                        some (g1, a :: nvt, scan (a :: nvt) false rest) :=
                      tryMatch_concat hg1 ha hnl hXshape
                    have harg : verKey ++ g1 ++ (a :: nvt) ++ scan (a :: nvt) false rest =
                        verKey ++ (g1 ++ (a :: nvt) ++ scan (a :: nvt) false rest) := by
                      simp
                    rw [harg]
                    rw [scan_fire_of (verKey_app_ne_nil _) (isPrefixOf_append_self _ _)
                      (by rw [drop8_verKey]; exact htm2)]
                    rw [ih rest hrl false]
                    simp
                | none =>
                    have hid : scan (a :: nvt) true (c :: t) = c :: t := by
                      rw [scan_cons_noMatch hmm]
                      have hdec : c :: t = verKey ++ (c :: t).drop 8 := by
                        have h := eq_app_of_isPrefixOf hp
                        rwa [show verKey.length = 8 from rfl] at h
                      rw [show verKey ++ (c :: t).drop 8 =
                        'V' :: (String.toList "ersion:" ++ (c :: t).drop 8) from rfl] at hdec
                      injection hdec with hc htt
                      have hu := tryMatch_none_all_nl hmm
                      rw [show (c == '\n') = false from by rw [hc]; decide]
                      conv_lhs => rw [htt]
                      rw [scan_false_app (x := String.toList "ersion:") (by decide)]
                      rw [scan_all_nl hu false]
                      conv_rhs => rw [htt]
                    rw [hid]
                    exact hid
              · have hpf : verKey.isPrefixOf (c :: t) = false := Bool.not_eq_true _ ▸ hp
                rw [scan_cons_noFire (by simp [hpf])]
                by_cases hc : c = '\n'
                · subst hc
                  rw [show ('\n' == '\n') = true from by decide]
                  rw [scan_cons_noFire (by simp [verKey_not_prefix_nl])]
                  rw [show ('\n' == '\n') = true from by decide]
                  rw [ih t ht true]
                · have hcb : (c == '\n') = false := by simp [hc]
                  rw [hcb]
                  have hfire2 : verKey.isPrefixOf (c :: scan (a :: nvt) false t) = false := by
                    rw [isPrefixOf_cons_scan]
                    exact hpf
                  rw [scan_cons_noFire (by simp [hfire2])]
                  rw [hcb]
                  rw [ih t ht false]

/-- Idempotence of the substitution itself, for a well-formed new version:
nonempty, not led by whitespace, newline free. -/
theorem sub_idem {a : Char} {nvt s : List Char}
    (ha : isPySpace a = false) (hnl : '\n' ∉ a :: nvt) :
    sub (a :: nvt) (sub (a :: nvt) s) = sub (a :: nvt) s :=
  scan_scan ha hnl s.length s (le_refl _) true

/-! ## Version comparison (`compare_versions`, updater.py lines 26-59)

`rpmdev-vercmp` is spawned; the run either raises (modelled `Except.error`)
or yields an exit status.  Status 12 means the upstream version is strictly
newer, 11 means the repository version is newer (upstream older), 0 means
the versions are equal; any other status is printed as a comparison error.
The function returns `True` (update needed) only in the status-12 branch. -/

inductive CmpOutcome where
  | newer | older | same | cmpError
deriving DecidableEq, Repr

/-- The classification printed by `compare_versions`, branch for branch. -/
def classify_cmp (res : Except Unit Int) : CmpOutcome :=
  match res with
  | .error _ => .cmpError
  | .ok code =>
      if code = 12 then .newer
      else if code = 11 then .older
      else if code = 0 then .same
      else .cmpError

/-- `compare_versions`: `True` exactly in the status-12 branch; the other
status branches, the unknown-status branch and the exception handler all
return `False`. -/
def compare_versions (res : Except Unit Int) : Bool :=
  match res with
  | .error _ => false
  | .ok code =>
      if code = 12 then true
      else if code = 11 then false
      else if code = 0 then false
      else false

/-! ## nvchecker output scan (`check_update`, updater.py lines 106-119)

Each stdout line of `nvchecker --logger json` either fails to parse (the
loop skips it with `continue`) or is a record that may carry `name` and
`version` fields.  The loop returns `log_entry["version"]` for the first
record in which `"version" in log_entry` holds — the record's `name` is
never consulted, although the in-code comment says the entry should
correspond to the specified package. -/

inductive NvLine where
  | invalid
  | entry (name : Option String) (version : Option String)
deriving DecidableEq, Repr

/-- The scan the code performs over the parsed stdout lines. -/
def check_update_scan : List NvLine → Option String
  | [] => none
  | .invalid :: rest => check_update_scan rest
  | .entry _ version :: rest =>
      match version with
      | some v => some v
      | none => check_update_scan rest

/-- Modelled from the spec: "parse each record, and return the `version`
field of the first record matching the package name" (section 4.2).  Stated
as the reference behaviour the code is compared against. -/
def check_update_specced (pkg : String) : List NvLine → Option String
  | [] => none
  | .invalid :: rest => check_update_specced pkg rest
  | .entry name version :: rest =>
      match name, version with
      | some n, some v =>
          if n = pkg then some v else check_update_specced pkg rest
      | _, _ => check_update_specced pkg rest

/-! ## Per-package workflow (`handle_update`, updater.py lines 170-248)

The workflow's interactions with the outside world (git, the spec file,
nvchecker, rpmdev-vercmp, spectool, abf) are modelled by an environment
fixing the result of each stage; `handle_update` is the control flow over
it.  The result is the sequence of stage invocations, the log lines
written, and the exception escaping the call, if any. -/

structure PkgEnv where
  dirExists : Bool
  pullOk : Bool
  cloneOk : Bool
  specExists : Bool
  repoVer : Except String String
  upstream : Except String (Option String)
  cmpRes : Except Unit Int
  specUpdOk : Bool
  spectoolOk : Bool
  commitOk : Bool

inductive Action where
  | gitPull | gitClone | readSpec | checkUpd | cmpVers
  | updSpec (path : String) (version : String)
  | spectoolRun
  | commitPush (version : String)
deriving DecidableEq, Repr

/-- The `except Exception` handler (updater.py lines 244-248).  With a log
file configured it evaluates the f-string
`"{package_name} failed to update from [{current_version}] to [{upstream_version}]: {e}"`;
reading `current_version` or `upstream_version` raises `UnboundLocalError`
when the failing stage preceded their assignment, and that new exception
escapes `handle_update`.  Without a log file only a print happens and the
call returns normally.  Returns (log lines written, escaped exception). -/
def except_handler (name : String) (logFile : Bool)
    (curVer upVer : Option String) (msg : String) :
    List String × Option String :=
  if logFile then
    match curVer, upVer with
    | some cv, some uv =>
        ([name ++ " failed to update from [" ++ cv ++ "] to [" ++ uv ++ "]: " ++ msg],
          none)
    | _, _ => ([], some "UnboundLocalError")
  else ([], none)

/-- `os.path.join(os.path.expanduser("~"), name, name + ".spec")`. -/
def specFileOf (name : String) : String := "~/" ++ name ++ "/" ++ name ++ ".spec"

def handle_update (name : String) (env : PkgEnv) (logFile : Bool) :
    List Action × List String × Option String :=
  let a1 : Action := if env.dirExists then .gitPull else .gitClone
  if (if env.dirExists then env.pullOk else env.cloneOk) = false then
    let h := except_handler name logFile none none "git command failed"
    ([a1], h.1, h.2)
  else if env.specExists = false then
    let h := except_handler name logFile none none "spec file not found"
    ([a1], h.1, h.2)
  else
    match env.repoVer with
    | .error m =>
        let h := except_handler name logFile none none m
        ([a1, .readSpec], h.1, h.2)
    | .ok cv =>
        match env.upstream with
        | .error m =>
            let h := except_handler name logFile (some cv) none m
            ([a1, .readSpec, .checkUpd], h.1, h.2)
        | .ok none =>
            ([a1, .readSpec, .checkUpd],
              if logFile then [name ++ " no update available from [" ++ cv ++ "]"]
              else [], none)
        | .ok (some uv) =>
            if compare_versions env.cmpRes then
              if env.specUpdOk = false then
                let h := except_handler name logFile (some cv) (some uv)
                  "spec update failed"
                ([a1, .readSpec, .checkUpd, .cmpVers, .updSpec (specFileOf name) uv],
                  h.1, h.2)
              else if env.spectoolOk = false then
                let h := except_handler name logFile (some cv) (some uv)
                  "spectool failed"
                ([a1, .readSpec, .checkUpd, .cmpVers, .updSpec (specFileOf name) uv,
                  .spectoolRun], h.1, h.2)
              else if env.commitOk = false then
                let h := except_handler name logFile (some cv) (some uv)
                  "abf process failed"
                ([a1, .readSpec, .checkUpd, .cmpVers, .updSpec (specFileOf name) uv,
                  .spectoolRun, .commitPush uv], h.1, h.2)
              else
                ([a1, .readSpec, .checkUpd, .cmpVers, .updSpec (specFileOf name) uv,
                  .spectoolRun, .commitPush uv],
                  if logFile then [name ++ " upgraded [" ++ cv ++ "] to [" ++ uv ++ "]"]
                  else [], none)
            else
              ([a1, .readSpec, .checkUpd, .cmpVers],
                if logFile then [name ++ " is already up-to-date."] else [], none)

/-- `handle_file` (updater.py lines 250-260): the per-package loop sits
inside the function's own `try`, so an exception escaping `handle_update`
aborts the remaining packages (it is caught and printed at the
`handle_file` boundary).  Returns (packages whose workflow ran, log lines,
whether the batch was aborted early). -/
def handle_file : List (String × PkgEnv) → Bool → List String × List String × Bool
  | [], _ => ([], [], false)
  | (n, e) :: rest, logFile =>
      let r := handle_update n e logFile
      match r.2.2 with
      | some _ => ([n], r.2.1, true)
      | none =>
          let rr := handle_file rest logFile
          (n :: rr.1, r.2.1 ++ rr.2.1, rr.2.2)

/-! ## `.nvchecker.toml` source resolution (`process_package`,
autoadd_toml.py lines 79-104)

The candidates are probed in order with `requests.head`: first the rosa
repository's own `.nvchecker.toml`, then the Arch Linux packaging
repository's.  A present rosa file means nothing to add; a present Arch
file is downloaded, checked with nvchecker and pushed; no file anywhere
means the package is skipped. -/

inductive AAct where
  | probeRosa | probeArch | download | runNv | gitOps
deriving DecidableEq, Repr

inductive AOutcome where
  | alreadyPresent | notFound | downloadFailed | nvFailed | added
deriving DecidableEq, Repr

structure AAEnv where
  rosaExists : Bool
  archExists : Bool
  downloadOk : Bool
  nvOk : Bool

def process_package (e : AAEnv) : List AAct × AOutcome :=
  if e.rosaExists then ([.probeRosa], .alreadyPresent)
  else if e.archExists = false then ([.probeRosa, .probeArch], .notFound)
  else if e.downloadOk = false then
    ([.probeRosa, .probeArch, .download], .downloadFailed)
  else if e.nvOk = false then
    ([.probeRosa, .probeArch, .download, .runNv], .nvFailed)
  else ([.probeRosa, .probeArch, .download, .runNv, .gitOps], .added)

inductive Mirror where
  | rosa | arch
deriving DecidableEq, Repr

/-- The resolver's selection: the first candidate base URL whose existence
probe succeeds, in the probing order of `process_package`. -/
def resolved (e : AAEnv) : Option Mirror :=
  if e.rosaExists then some .rosa
  else if e.archExists then some .arch
  else none

/-! ## `git_operations` (autoadd_toml.py lines 50-77)

The try body clones, moves the file in, then `os.chdir(repo_path)` and
runs git add/commit/push.  A `CalledProcessError` from any spawned command
is caught and logged; any other exception (for example from `shutil.move`)
escapes; the `finally` block always runs `os.chdir(home_dir)`. -/

structure GitEnv where
  cloneOk : Bool
  moveOk : Bool
  addOk : Bool
  commitOk : Bool
  pushOk : Bool

/-- `git_operations` modelled on the process state it touches, the working
directory `cwd0` at entry.  Returns (working directory after the call,
escaped exception).  The body's directory position before `finally` is
`cwd0` until the `os.chdir(repo_path)` call, `repoPath` after it; the
`finally` block then runs `os.chdir(home_dir)` on every exit path. -/
def git_operations (home repoPath cwd0 : String) (e : GitEnv) :
    String × Option String :=
  let body : String × Option String :=
    if e.cloneOk = false then (cwd0, none)
    else if e.moveOk = false then (cwd0, some "shutil.move error")
    else (repoPath, none)
  (home, body.2)

/-- Helper: a map that fixes every element of a list fixes the list. -/
theorem map_id_of (f : List Char → List Char) :
    ∀ ls : List (List Char), (∀ l ∈ ls, f l = l) → ls.map f = ls := by
  intro ls h
  induction ls with
  | nil => rfl
  | cons a t ih => simp [h a (by simp), ih (fun x hx => h x (by simp [hx]))]

/-! ## Claim theorems for the spec mutator -/

/-- Claim C1, counterexample: on `"Version: 1\nVersion: 2"` with target
version `"9"` the mutator rewrites BOTH lines matching the version-field
pattern; the later matching line `"Version: 2"` is not left unchanged, so
"only the first matching line is rewritten" is false on the code. -/
theorem C1_counterexample :
    sub ("9".toList) ("Version: 1\nVersion: 2".toList) =
      ("Version: 9\nVersion: 9".toList)
    ∧ lineMatches ("Version: 2".toList) = true
    ∧ (splitOnNl (sub ("9".toList) ("Version: 1\nVersion: 2".toList)))[1]? =
        some ("Version: 9".toList)
    ∧ ("Version: 9".toList ≠ "Version: 2".toList) := by
  decide

/-- Claim C1, amended: `update_version_in_spec_file` rewrites EVERY line
matching the version-field pattern, not only the first: on contents whose
lines are newline free and whose `Version:` lines carry a nonempty value,
the substitution acts line-wise, replacing the value of each matching line
(top to bottom) and leaving every other line unchanged. -/
theorem C1_every_matching_line_rewritten (nv : List Char)
    (ls : List (List Char)) (h : ∀ l ∈ ls, lineOk l) :
    sub nv (joinLines ls) = joinLines (ls.map (lineSub nv)) :=
  scan_join ls h

/-- Claim C1, witness: a three-line content whose first and third lines
match; both are rewritten. -/
theorem C1_witness :
    sub ("9".toList)
        (joinLines ["Version: 1".toList, "Other: x".toList, "Version: 2".toList]) =
      joinLines (["Version: 1".toList, "Other: x".toList, "Version: 2".toList].map
        (lineSub ("9".toList))) :=
  C1_every_matching_line_rewritten ("9".toList) _ (by decide)

/-- Claim C5, counterexample: with target version `" 2"` (led by a space)
the mutation is NOT idempotent: on `"Version: 1"` the first application
yields `"Version:  2"`, the second yields `"Version:   2"`, and the second
application reports a write rather than no changes. -/
theorem C5_counterexample :
    sub (" 2".toList) (sub (" 2".toList) ("Version: 1".toList)) ≠
      sub (" 2".toList) ("Version: 1".toList)
    ∧ update_version_in_spec_file (sub (" 2".toList) ("Version: 1".toList))
        (" 2".toList) ≠ SpecUpdateResult.noChanges := by
  decide

/-- Claim C5, amended: for every file content, if the target version is
nonempty, does not begin with a whitespace character and contains no
newline, then the mutation is idempotent: applying it twice yields the
contents of applying it once, and the second application reports no changes
and performs no write. -/
theorem C5_idempotent (a : Char) (nvt s : List Char)
    (ha : isPySpace a = false) (hnl : '\n' ∉ a :: nvt) :
    sub (a :: nvt) (sub (a :: nvt) s) = sub (a :: nvt) s
    ∧ update_version_in_spec_file (sub (a :: nvt) s) (a :: nvt) =
        SpecUpdateResult.noChanges := by
  have h := sub_idem (s := s) ha hnl
  refine ⟨h, ?_⟩
  unfold update_version_in_spec_file
  simp [h]

/-- Claim C5, witness: updating to `"7.3.0"` twice equals updating once,
and the second run reports no changes. -/
theorem C5_witness :
    sub ('7' :: ".3.0".toList)
        (sub ('7' :: ".3.0".toList) ("Version: 7.2.0\nRelease: 1".toList)) =
      sub ('7' :: ".3.0".toList) ("Version: 7.2.0\nRelease: 1".toList)
    ∧ update_version_in_spec_file
        (sub ('7' :: ".3.0".toList) ("Version: 7.2.0\nRelease: 1".toList))
        ('7' :: ".3.0".toList) = SpecUpdateResult.noChanges :=
  C5_idempotent '7' (".3.0".toList) ("Version: 7.2.0\nRelease: 1".toList)
    (by decide) (by decide)

/-- Claim C6, counterexample: on contents with two matching `Version:`
lines the before/after diff spans TWO lines (lines 1 and 2 both change), so
"the diff is confined to one line" is false on the code. -/
theorem C6_counterexample :
    ((splitOnNl (sub ("7.0".toList)
        ("Name: x\nVersion: 1\nVersion: 2\n".toList)))[1]? ≠
      (splitOnNl ("Name: x\nVersion: 1\nVersion: 2\n".toList))[1]?)
    ∧ ((splitOnNl (sub ("7.0".toList)
        ("Name: x\nVersion: 1\nVersion: 2\n".toList)))[2]? ≠
      (splitOnNl ("Name: x\nVersion: 1\nVersion: 2\n".toList))[2]?) := by
  decide

/-- Claim C6, amended: on contents whose lines are newline free and whose
`Version:` lines carry a nonempty value, every line not matching the
version-field pattern is preserved byte-for-byte, and a matching line keeps
`Version:` and its whitespace and changes only the value segment; the diff
is therefore confined to the matching lines, of which there may be several. -/
theorem C6_frame (nv : List Char) (ls : List (List Char))
    (h : ∀ l ∈ ls, lineOk l) :
    sub nv (joinLines ls) = joinLines (ls.map (lineSub nv))
    ∧ (∀ l ∈ ls, lineMatches l = false → lineSub nv l = l)
    ∧ (∀ l ∈ ls, lineMatches l = true →
        lineSub nv l = verKey ++ lineWs l ++ nv) := by
  refine ⟨scan_join ls h, ?_, ?_⟩
  · intro l _ hm
    simp [lineSub, hm]
  · intro l _ hm
    simp [lineSub, hm]

/-- Claim C6, witness: a content with one matching line among others. -/
theorem C6_witness :
    sub ("7.0".toList)
        (joinLines ["Name: x".toList, "Version: 1".toList, "Release: 2".toList]) =
      joinLines (["Name: x".toList, "Version: 1".toList, "Release: 2".toList].map
        (lineSub ("7.0".toList)))
    ∧ (∀ l ∈ ["Name: x".toList, "Version: 1".toList, "Release: 2".toList],
        lineMatches l = false → lineSub ("7.0".toList) l = l)
    ∧ (∀ l ∈ ["Name: x".toList, "Version: 1".toList, "Release: 2".toList],
        lineMatches l = true →
          lineSub ("7.0".toList) l = verKey ++ lineWs l ++ ("7.0".toList)) :=
  C6_frame ("7.0".toList) _ (by decide)

/-- Claim C10, counterexample: `"Version:\nfoo"` contains no line matching
the version-field pattern — the line `"Version:"` has an empty value and
`"foo"` lacks the key — yet the mutator rewrites the contents to
`"Version:\n9"` and performs a write, because the multiline `\s*` crosses
the newline. -/
theorem C10_counterexample :
    ((splitOnNl ("Version:\nfoo".toList)).all
        (fun l => !(lineRegexMatch l))) = true
    ∧ update_version_in_spec_file ("Version:\nfoo".toList) ("9".toList) =
        SpecUpdateResult.written ("Version:\n9".toList) := by
  decide

/-- Claim C10, amended: whenever no line of the contents even starts with
`Version:`, the mutator is a silent no-op: the substitution returns the
contents unchanged and the function reports no changes, performing no write
and raising no error. -/
theorem C10_noop (nv c : List Char)
    (h : ∀ l ∈ splitOnNl c, verKey.isPrefixOf l = false) :
    update_version_in_spec_file c nv = SpecUpdateResult.noChanges := by
  have hok : ∀ l ∈ splitOnNl c, lineOk l := by
    intro l hl
    exact ⟨splitOnNl_no_nl c l hl, fun hcon => absurd hcon (by simp [h l hl])⟩
  have hfix : ∀ l ∈ splitOnNl c, lineSub nv l = l := by
    intro l hl
    simp [lineSub, lineMatches, h l hl]
  have hmap : (splitOnNl c).map (lineSub nv) = splitOnNl c :=
    map_id_of _ _ hfix
  have hsub : sub nv c = c := by
    conv_lhs => rw [← joinLines_splitOnNl c]
    rw [show sub nv (joinLines (splitOnNl c)) =
      joinLines ((splitOnNl c).map (lineSub nv)) from scan_join _ hok]
    rw [hmap, joinLines_splitOnNl]
  unfold update_version_in_spec_file
  simp [hsub]

/-- Claim C10, witness: a content with no `Version:` line at all. -/
theorem C10_witness :
    update_version_in_spec_file ("Name: foo\nRelease: 1".toList) ("9".toList) =
      SpecUpdateResult.noChanges :=
  C10_noop ("9".toList) ("Name: foo\nRelease: 1".toList) (by decide)

/-! ## Claim theorems for the workflow -/

/-- Claim C2: the loop in `check_update` returns the `version` of the first
version-bearing record without consulting its `name` — on output listing a
foreign package first it returns that package's version, where the spec
(and the code's own comment) call for the first record matching the queried
package name; parse failures alone still yield `None`. -/
theorem C2_name_ignored :
    check_update_scan
        [NvLine.entry (some "other") (some "1.0"),
          NvLine.entry (some "qemu") (some "2.0")] = some "1.0"
    ∧ check_update_specced "qemu"
        [NvLine.entry (some "other") (some "1.0"),
          NvLine.entry (some "qemu") (some "2.0")] = some "2.0"
    ∧ some "1.0" ≠ (some "2.0" : Option String)
    ∧ check_update_scan [NvLine.invalid, NvLine.invalid] = none := by
  refine ⟨rfl, rfl, by decide, rfl⟩

/-- Environment for claim C3's failing input: the first package's git clone
fails, everything else would succeed. -/
def c3FailEnv : PkgEnv :=
  { dirExists := false, pullOk := true, cloneOk := false, specExists := true,
    repoVer := .ok "1.0", upstream := .ok (some "2.0"), cmpRes := .ok 12,
    specUpdOk := true, spectoolOk := true, commitOk := true }

/-- Environment for claim C3's second package: everything succeeds. -/
def c3GoodEnv : PkgEnv :=
  { c3FailEnv with cloneOk := true }

/-- Claim C3: when a log file is configured and a package's clone fails,
the `except` handler's f-string reads the unassigned `current_version` and
`upstream_version` locals, raising `UnboundLocalError` out of
`handle_update`; the failure is not logged and the batch is aborted before
the second package.  Without a log file the same failure is contained and
the batch completes. -/
theorem C3_batch_aborted :
    handle_update "a" c3FailEnv true =
      ([Action.gitClone], [], some "UnboundLocalError")
    ∧ handle_file [("a", c3FailEnv), ("b", c3GoodEnv)] true = (["a"], [], true)
    ∧ handle_update "a" c3FailEnv false = ([Action.gitClone], [], none)
    ∧ handle_file [("a", c3FailEnv), ("b", c3GoodEnv)] false =
        (["a", "b"], [], false) := by
  refine ⟨rfl, rfl, rfl, rfl⟩

/-- Claim C4: `compare_versions` classifies the comparator's exit status
into exactly three outcomes — `newer` (status 12, and the only case where
it returns `true`), `older` (status 11), `same` (status 0) — and any other
status, as well as a raised exception, is a comparison error on which it
returns `false`: it never reports an update on an ambiguous or failed
comparison. -/
theorem C4_classification (res : Except Unit Int) (code : Int) :
    (compare_versions res = true ↔ classify_cmp res = CmpOutcome.newer)
    ∧ (classify_cmp res = CmpOutcome.newer ↔ res = .ok 12)
    ∧ (classify_cmp res = CmpOutcome.older ↔ res = .ok 11)
    ∧ (classify_cmp res = CmpOutcome.same ↔ res = .ok 0)
    ∧ (classify_cmp (.ok code) = CmpOutcome.cmpError ↔
        ¬(code = 12 ∨ code = 11 ∨ code = 0))
    ∧ classify_cmp (.error ()) = CmpOutcome.cmpError
    ∧ compare_versions (.error ()) = false := by
  refine ⟨?_, ?_, ?_, ?_, ?_, rfl, rfl⟩
  · cases res with
    | error e => simp [compare_versions, classify_cmp]
    | ok c =>
        simp only [compare_versions, classify_cmp]
        split_ifs <;> simp_all
  · cases res with
    | error e => simp [classify_cmp]
    | ok c =>
        simp only [classify_cmp, Except.ok.injEq]
        split_ifs <;> simp_all
  · cases res with
    | error e => simp [classify_cmp]
    | ok c =>
        simp only [classify_cmp, Except.ok.injEq]
        split_ifs <;> simp_all
  · cases res with
    | error e => simp [classify_cmp]
    | ok c =>
        simp only [classify_cmp, Except.ok.injEq]
        split_ifs <;> simp_all
  · simp only [classify_cmp]
    split_ifs <;> simp_all

/-- Recognizer for the spec-mutator invocation in a trace. -/
def isUpdSpecAct : Action → Bool
  | .updSpec _ _ => true
  | _ => false

/-- Claim C7: in `handle_update`, once clone/pull, the spec lookup, the
version extraction and the upstream check have succeeded, a comparator
verdict of `true` (Newer) leads to exactly one invocation of the spec
mutator, with the package's spec file path and the upstream version —
whatever happens in the later stages — while a verdict of `false` (Same,
Older, or a comparison error) means the mutator, spectool and the
commit/push/build step are never invoked and the package is logged as
already up-to-date. -/
theorem C7_mutator_gating (name : String) (env : PkgEnv) (logFile : Bool)
    (cv uv : String)
    (h1 : (if env.dirExists then env.pullOk else env.cloneOk) = true)
    (h2 : env.specExists = true)
    (h3 : env.repoVer = Except.ok cv)
    (h4 : env.upstream = Except.ok (some uv)) :
    (compare_versions env.cmpRes = true →
      (handle_update name env logFile).1.filter isUpdSpecAct =
        [Action.updSpec (specFileOf name) uv])
    ∧ (compare_versions env.cmpRes = false →
      (∀ p v, Action.updSpec p v ∉ (handle_update name env logFile).1)
      ∧ Action.spectoolRun ∉ (handle_update name env logFile).1
      ∧ (∀ v, Action.commitPush v ∉ (handle_update name env logFile).1)
      ∧ (handle_update name env logFile).2.1 =
          (if logFile then [name ++ " is already up-to-date."] else [])) := by
  obtain ⟨de, po, co, se, rv, us, cr, su, st, cm⟩ := env
  simp only at h1 h2 h3 h4
  subst h2 h3 h4
  constructor
  · intro hc
    cases de <;>
      simp only [if_true, if_false, Bool.false_eq_true] at h1 <;> subst h1 <;>
        simp [handle_update, hc, isUpdSpecAct] <;>
          split_ifs <;> simp [List.filter, isUpdSpecAct]
  · intro hc
    cases de <;>
      simp only [if_true, if_false, Bool.false_eq_true] at h1 <;> subst h1 <;>
        simp [handle_update, hc, isUpdSpecAct]

/-- Claim C7, witness: a concrete run where the comparator reports Newer
and a concrete run where it reports Same, for package `"pkg"`. -/
theorem C7_witness :
    (compare_versions (PkgEnv.cmpRes
        { dirExists := false, pullOk := true, cloneOk := true,
          specExists := true, repoVer := .ok "1.0",
          upstream := .ok (some "2.0"), cmpRes := .ok 12, specUpdOk := true,
          spectoolOk := true, commitOk := true }) = true →
      (handle_update "pkg"
        { dirExists := false, pullOk := true, cloneOk := true,
          specExists := true, repoVer := .ok "1.0",
          upstream := .ok (some "2.0"), cmpRes := .ok 12, specUpdOk := true,
          spectoolOk := true, commitOk := true } true).1.filter isUpdSpecAct =
        [Action.updSpec (specFileOf "pkg") "2.0"])
    ∧ (compare_versions (PkgEnv.cmpRes
        { dirExists := false, pullOk := true, cloneOk := true,
          specExists := true, repoVer := .ok "1.0",
          upstream := .ok (some "2.0"), cmpRes := .ok 12, specUpdOk := true,
          spectoolOk := true, commitOk := true }) = false →
      (∀ p v, Action.updSpec p v ∉ (handle_update "pkg"
        { dirExists := false, pullOk := true, cloneOk := true,
          specExists := true, repoVer := .ok "1.0",
          upstream := .ok (some "2.0"), cmpRes := .ok 12, specUpdOk := true,
          spectoolOk := true, commitOk := true } true).1)
      ∧ Action.spectoolRun ∉ (handle_update "pkg"
        { dirExists := false, pullOk := true, cloneOk := true,
          specExists := true, repoVer := .ok "1.0",
          upstream := .ok (some "2.0"), cmpRes := .ok 12, specUpdOk := true,
          spectoolOk := true, commitOk := true } true).1
      ∧ (∀ v, Action.commitPush v ∉ (handle_update "pkg"
        { dirExists := false, pullOk := true, cloneOk := true,
          specExists := true, repoVer := .ok "1.0",
          upstream := .ok (some "2.0"), cmpRes := .ok 12, specUpdOk := true,
          spectoolOk := true, commitOk := true } true).1)
      ∧ (handle_update "pkg"
        { dirExists := false, pullOk := true, cloneOk := true,
          specExists := true, repoVer := .ok "1.0",
          upstream := .ok (some "2.0"), cmpRes := .ok 12, specUpdOk := true,
          spectoolOk := true, commitOk := true } true).2.1 =
          (if true then ["pkg" ++ " is already up-to-date."] else [])) :=
  C7_mutator_gating "pkg" _ true "1.0" "2.0" rfl rfl rfl rfl

/-- Claim C8: `process_package` probes the candidate sources in order —
the rosa repository first, the Arch Linux packaging repository only when
the first probe fails — so the resolver selects the first responding
candidate; when the primary does not respond but the fallback does, the
fallback is selected and (given the later stages succeed) the workflow
proceeds to completion; when no candidate responds the outcome is a skip
with no download and no git mutation. -/
theorem C8_resolver (e : AAEnv) :
    (process_package e).1.head? = some AAct.probeRosa
    ∧ (AAct.probeArch ∈ (process_package e).1 ↔ e.rosaExists = false)
    ∧ (resolved e = some Mirror.arch ↔
        (e.rosaExists = false ∧ e.archExists = true))
    ∧ (resolved e = none ↔ (process_package e).2 = AOutcome.notFound)
    ∧ ((process_package e).2 = AOutcome.notFound →
        AAct.download ∉ (process_package e).1
        ∧ AAct.gitOps ∉ (process_package e).1)
    ∧ ((e.rosaExists = false ∧ e.archExists = true ∧ e.downloadOk = true ∧
        e.nvOk = true) → (process_package e).2 = AOutcome.added)
    ∧ ((process_package e).2 = AOutcome.added →
        AAct.gitOps ∈ (process_package e).1) := by
  obtain ⟨r, ar, dl, nk⟩ := e
  cases r <;> cases ar <;> cases dl <;> cases nk <;> decide

/-- Claim C9, counterexample: called with the process in `"/tmp"` and the
home directory `"/home/omv"`, `git_operations` leaves the working directory
at `"/home/omv"` on both the success path and the clone-failure path — not
at the pre-call `"/tmp"`, so "restored to what it was before the call" is
false on the code. -/
theorem C9_counterexample :
    (git_operations "/home/omv" "/home/omv/pkg" "/tmp"
        ⟨true, true, true, true, true⟩).1 = "/home/omv"
    ∧ (git_operations "/home/omv" "/home/omv/pkg" "/tmp"
        ⟨false, true, true, true, true⟩).1 = "/home/omv"
    ∧ "/home/omv" ≠ "/tmp" := by
  refine ⟨rfl, rfl, by decide⟩

/-- Claim C9, amended: on every exit path — success, caught git failure,
and the escaping move failure alike — the working directory after
`git_operations` is the home directory passed to the script, which equals
the pre-call working directory exactly when the process already was in the
home directory. -/
theorem C9_cwd_always_home (home repoPath cwd0 : String) (e : GitEnv) :
    (git_operations home repoPath cwd0 e).1 = home
    ∧ ((git_operations home repoPath cwd0 e).1 = cwd0 ↔ cwd0 = home) :=
  ⟨rfl, by
    rw [show (git_operations home repoPath cwd0 e).1 = home from rfl]
    exact eq_comm⟩

end Autoupdater
